import Mathlib

/-!
Shallow embedding of the conversation-memory core of the LocalRAGSystem
repository (`src/utils/conversation_memory.py` and the query-enhancement
helper `create_contextual_query` in `api.py`), together with theorems that
settle the specification claims about it.

Modelling conventions:
* Python `dict` objects (the store's `self.conversations`, each conversation
  record's metadata, and JSON objects) are modelled as association lists in
  insertion order, which is exactly the iteration/serialisation order of a
  Python dict.
* Timestamps (`datetime.now().isoformat()`) are modelled as natural numbers;
  ISO-8601 strings compare in the same order as the instants they denote, so
  `sorted(..., key=last_updated)` is order-isomorphic to sorting by `Nat`.
* `uuid.uuid4()` and `datetime.now()` are nondeterministic inputs, passed to
  each operation explicitly (`freshId`, `now`).
* Python string slicing `s[:n]` operates on code points, i.e. on `s.data`.
-/

namespace ConvMem

/-- Python slice `s[:n]`: the first `n` code points of `s`. -/
def truncate (s : String) (n : Nat) : String := String.mk (s.data.take n)

/-- Python slice `xs[-k:]` for `k : Nat`: the trailing `k` elements,
except that `xs[-0:]` is the whole list. -/
def lastSlice {α : Type} (xs : List α) (k : Nat) : List α :=
  if k = 0 then xs else xs.drop (xs.length - k)

/-- The trailing `k` elements of a list (`xs[-k:]` for `k ≥ 1`). -/
def lastN {α : Type} (k : Nat) (xs : List α) : List α :=
  xs.drop (xs.length - k)

/-- A message record, as built by `add_message`:
`{'role': .., 'content': .., 'timestamp': .., 'metadata': ..}`. -/
structure Message where
  role : String
  content : String
  timestamp : Nat
  metadata : List (String × String)
deriving DecidableEq, Repr

/-- A conversation record, as built by `start_conversation`:
`{'id': .., 'created_at': .., 'last_updated': .., 'messages': ..,
'context': .., 'metadata': ..}`. -/
structure Conv where
  id : String
  created_at : Nat
  last_updated : Nat
  messages : List Message
  context : List (String × String)
  metadata : List (String × String)
deriving DecidableEq, Repr

abbrev ConvEntry := String × Conv

/-- A JSON value, the image of `json.dump`/`json.load` on the store's data. -/
inductive JVal where
  | str (s : String)
  | num (n : Nat)
  | arr (elems : List JVal)
  | obj (fields : List (String × JVal))

/-- The persistent storage file `conversation_memory.json`: it can be absent,
unparseable (`json.load` raises), or hold a parsed JSON value. -/
inductive StorageFile where
  | missing
  | corrupt
  | saved (j : JVal)

/-- The `ConversationMemory` object state: the two configured bounds, the
in-memory `self.conversations` dict, and the on-disk snapshot. -/
structure Store where
  max_conversations : Nat
  max_messages_per_conversation : Nat
  conversations : List ConvEntry
  persisted : StorageFile

/-- `conversation_id in self.conversations` / dict lookup: first (only)
entry with the given key. -/
def findConv (cs : List ConvEntry) (cid : String) : Option Conv :=
  (cs.find? (fun e => e.1 == cid)).map (fun e => e.2)

/-- `conversation_id in self.conversations`. -/
def knownId (s : Store) (cid : String) : Bool :=
  (s.conversations.find? (fun e => e.1 == cid)).isSome

/-- Python dict assignment `d[k] = v`: overwrite in place if the key exists,
otherwise append at the end (dicts preserve insertion order). -/
def setConv : List ConvEntry → String → Conv → List ConvEntry
  | [], cid, c => [(cid, c)]
  | e :: rest, cid, c =>
      if e.1 == cid then (cid, c) :: rest else e :: setConv rest cid c

/-- In-place mutation of the record stored under `cid`
(e.g. `self.conversations[cid]['messages'].append(..)`). -/
def updateConv (cs : List ConvEntry) (cid : String) (f : Conv → Conv) :
    List ConvEntry :=
  cs.map (fun e => if e.1 == cid then (e.1, f e.2) else e)

/-- `del self.conversations[cid]`. -/
def eraseConv (cs : List ConvEntry) (cid : String) : List ConvEntry :=
  cs.filter (fun e => !(e.1 == cid))

/-- Sort key of `_cleanup_old_conversations`: `x[1].get('last_updated', ..)`. -/
def lastUpd (e : ConvEntry) : Nat := e.2.last_updated

/-- One insertion step of a stable sort by `last_updated`; an element is
placed after every earlier element with a key `≤` its own. -/
def insertByUpd (a : ConvEntry) : List ConvEntry → List ConvEntry
  | [] => [a]
  | b :: bs => if lastUpd a ≤ lastUpd b then a :: b :: bs else b :: insertByUpd a bs

/-- Python `sorted(self.conversations.items(), key=last_updated)`: a stable
sort by `last_updated` ascending (stable sorts are extensionally unique, so
insertion sort is a faithful model of Timsort). -/
def sortByUpd : List ConvEntry → List ConvEntry
  | [] => []
  | a :: as => insertByUpd a (sortByUpd as)

/-- `_cleanup_old_conversations`, acting on the conversations dict: if over
capacity, sort by `last_updated` and delete the first
`len - max_conversations` keys. -/
def cleanupList (maxC : Nat) (cs : List ConvEntry) : List ConvEntry :=
  if cs.length ≤ maxC then cs
  else
    let sorted := sortByUpd cs
    let toRemove := cs.length - maxC
    let removedIds := (sorted.take toRemove).map Prod.fst
    cs.filter (fun e => !(removedIds.contains e.1))

/-- `_cleanup_old_conversations` on the store. -/
def cleanupOldConversations (s : Store) : Store :=
  { s with conversations := cleanupList s.max_conversations s.conversations }

/-- `_cleanup_old_messages`: if the conversation exists and its message list
exceeds the bound, replace it by `messages[-max_messages_per_conversation:]`. -/
def cleanupOldMessages (s : Store) (cid : String) : Store :=
  match findConv s.conversations cid with
  | none => s
  | some c =>
      if c.messages.length ≤ s.max_messages_per_conversation then s
      else
        { s with conversations := updateConv s.conversations cid (fun c' =>
            { c' with messages :=
                lastSlice c'.messages s.max_messages_per_conversation }) }

/-! ### JSON serialisation (`json.dump` / `json.load` of `self.conversations`) -/

/-- Encode a string-to-string dict as a JSON object. -/
def encodeMeta (m : List (String × String)) : JVal :=
  .obj (m.map (fun p => (p.1, .str p.2)))

/-- Decode the field list of a JSON object back into a string dict. -/
def decodeMetaFields : List (String × JVal) → Option (List (String × String))
  | [] => some []
  | (k, .str v) :: rest => (decodeMetaFields rest).map (fun m => (k, v) :: m)
  | _ => none

def decodeMeta : JVal → Option (List (String × String))
  | .obj fs => decodeMetaFields fs
  | _ => none

def encodeMessage (m : Message) : JVal :=
  .obj [("role", .str m.role), ("content", .str m.content),
        ("timestamp", .num m.timestamp), ("metadata", encodeMeta m.metadata)]

def decodeMessage : JVal → Option Message
  | .obj [("role", .str r), ("content", .str c),
          ("timestamp", .num t), ("metadata", mj)] =>
      (decodeMeta mj).map (fun md =>
        { role := r, content := c, timestamp := t, metadata := md })
  | _ => none

def decodeMessages : List JVal → Option (List Message)
  | [] => some []
  | j :: rest => do
      let m ← decodeMessage j
      let ms ← decodeMessages rest
      some (m :: ms)

def encodeConv (c : Conv) : JVal :=
  .obj [("id", .str c.id), ("created_at", .num c.created_at),
        ("last_updated", .num c.last_updated),
        ("messages", .arr (c.messages.map encodeMessage)),
        ("context", encodeMeta c.context), ("metadata", encodeMeta c.metadata)]

def decodeConv : JVal → Option Conv
  | .obj [("id", .str i), ("created_at", .num ca), ("last_updated", .num lu),
          ("messages", .arr ms), ("context", cj), ("metadata", mj)] => do
      let msgs ← decodeMessages ms
      let ctx ← decodeMeta cj
      let md ← decodeMeta mj
      some { id := i, created_at := ca, last_updated := lu,
             messages := msgs, context := ctx, metadata := md }
  | _ => none

def encodeConversations (cs : List ConvEntry) : JVal :=
  .obj (cs.map (fun e => (e.1, encodeConv e.2)))

def decodeConvFields : List (String × JVal) → Option (List ConvEntry)
  | [] => some []
  | (k, j) :: rest => do
      let c ← decodeConv j
      let cs ← decodeConvFields rest
      some ((k, c) :: cs)

def decodeConversations : JVal → Option (List ConvEntry)
  | .obj fs => decodeConvFields fs
  | _ => none

/-- `save_to_storage`: serialise `self.conversations` to the storage file
(we model the success path; an I/O failure leaves `persisted` untouched and
is only logged, which the claims under study do not exercise). -/
def saveToStorage (s : Store) : Store :=
  { s with persisted := .saved (encodeConversations s.conversations) }

/-- `load_from_storage`: a missing file leaves the state as it is; a file
that `json.load` cannot parse is caught and resets `self.conversations` to
the empty dict; a parsed snapshot replaces the state (an undecodable
parsed value is likewise grouped with corruption). -/
def loadFromStorage (file : StorageFile) (s : Store) : Store :=
  match file with
  | .missing => s
  | .corrupt => { s with conversations := [] }
  | .saved j =>
      match decodeConversations j with
      | some cs => { s with conversations := cs }
      | none => { s with conversations := [] }

/-- `ConversationMemory.__init__`: empty state, then `load_from_storage`. -/
def emptyStore (maxC maxM : Nat) : Store :=
  { max_conversations := maxC, max_messages_per_conversation := maxM,
    conversations := [], persisted := .missing }

def initStore (maxC maxM : Nat) (file : StorageFile) : Store :=
  loadFromStorage file
    { max_conversations := maxC, max_messages_per_conversation := maxM,
      conversations := [], persisted := file }

/-! ### Public operations -/

/-- Python truthiness of the optional `conversation_id` argument
(`None` and `""` are falsy). -/
def truthy : Option String → Bool
  | none => false
  | some s => !(s == "")

/-- The fresh conversation record built by `start_conversation`. -/
def newConv (cid : String) (now : Nat) : Conv :=
  { id := cid, created_at := now, last_updated := now,
    messages := [], context := [], metadata := [] }

/-- `start_conversation(conversation_id=None)`, with the `uuid.uuid4()`
result and the current time passed in explicitly. -/
def startConversation (s : Store) (cid? : Option String) (freshId : String)
    (now : Nat) : String × Store :=
  if truthy cid? && knownId s (cid?.getD "") then
    (cid?.getD "", s)
  else
    let convId := if truthy cid? then cid?.getD "" else freshId
    let s1 := { s with conversations :=
                  setConv s.conversations convId (newConv convId now) }
    (convId, saveToStorage (cleanupOldConversations s1))

/-- `add_message(conversation_id, role, content, metadata=None)`; the
`metadata or {}` default is the `md` argument. -/
def addMessage (s : Store) (cid role content : String)
    (md : List (String × String)) (now : Nat) : Bool × Store :=
  if knownId s cid then
    let msg : Message :=
      { role := role, content := content, timestamp := now, metadata := md }
    let cs1 := updateConv s.conversations cid
      (fun c => { c with messages := c.messages ++ [msg], last_updated := now })
    (true, saveToStorage (cleanupOldMessages { s with conversations := cs1 } cid))
  else (false, s)

/-- `get_conversation_history(conversation_id, limit=None)`; `if limit:` is
Python truthiness, so a limit of `0` does not slice. -/
def getConversationHistory (s : Store) (cid : String) (limit : Option Nat) :
    List Message :=
  match findConv s.conversations cid with
  | none => []
  | some c =>
      match limit with
      | none => c.messages
      | some l => if l = 0 then c.messages else c.messages.drop (c.messages.length - l)

/-- `_create_context_summary(messages)`. -/
def createContextSummary (messages : List Message) : String :=
  if messages = [] then "No previous conversation context."
  else
    let recent := messages.drop (messages.length - 3)
    String.intercalate " | "
      (recent.map (fun m => m.role ++ ": " ++ truncate m.content 200))

/-- The values a context-dict entry can hold. -/
inductive CtxVal where
  | str (s : String)
  | nat (n : Nat)
  | msgs (l : List Message)
  | meta (m : List (String × String))
deriving DecidableEq

/-- `get_conversation_context(conversation_id)`: the dict literal built for a
known conversation, or the empty dict for an unknown id. -/
def getConversationContext (s : Store) (cid : String) :
    List (String × CtxVal) :=
  match findConv s.conversations cid with
  | none => []
  | some c =>
      [("conversation_id", .str cid),
       ("message_count", .nat c.messages.length),
       ("last_updated", .nat c.last_updated),
       ("recent_messages", .msgs (c.messages.drop (c.messages.length - 5))),
       ("context_summary", .str (createContextSummary c.messages)),
       ("metadata", .meta c.metadata)]

/-- One step of Python `dict.update`: assign key `k`. -/
def setMeta : List (String × String) → String → String → List (String × String)
  | [], k, v => [(k, v)]
  | e :: rest, k, v => if e.1 == k then (k, v) :: rest else e :: setMeta rest k v

/-- Python `old.update(upd)`: per-key last-write-wins merge preserving the
position of existing keys and appending new keys in order. -/
def mergeMeta (old upd : List (String × String)) : List (String × String) :=
  upd.foldl (fun acc kv => setMeta acc kv.1 kv.2) old

/-- `update_conversation_metadata(conversation_id, metadata)`. -/
def updateConversationMetadata (s : Store) (cid : String)
    (md : List (String × String)) (now : Nat) : Bool × Store :=
  if knownId s cid then
    let cs1 := updateConv s.conversations cid
      (fun c => { c with metadata := mergeMeta c.metadata md, last_updated := now })
    (true, saveToStorage { s with conversations := cs1 })
  else (false, s)

/-- `delete_conversation(conversation_id)`. -/
def deleteConversation (s : Store) (cid : String) : Bool × Store :=
  if knownId s cid then
    (true, saveToStorage { s with conversations := eraseConv s.conversations cid })
  else (false, s)

/-- `get_all_conversations`: `self.conversations.copy()` — at the level of
values this is the conversations dict itself (the copy is shallow; the
aliasing consequences are modelled separately below). -/
def getAllConversations (s : Store) : List ConvEntry :=
  s.conversations

/-! ### Reference semantics of `get_conversation_history`

`get_conversation_history` returns the list object `conversations[cid]['messages']`
itself when `limit` is falsy (`return messages` without copying), and a fresh
slice object when `limit` is truthy (`messages[-limit:]` allocates a new list).
To reason about caller-side mutation we track which of the two the caller got. -/

inductive HistoryRef where
  /-- The store-internal `messages` list object of conversation `cid`. -/
  | internal (cid : String)
  /-- A freshly allocated list not shared with the store. -/
  | fresh (msgs : List Message)
deriving DecidableEq

def getConversationHistoryRef (s : Store) (cid : String) (limit : Option Nat) :
    HistoryRef :=
  match findConv s.conversations cid with
  | none => .fresh []
  | some c =>
      match limit with
      | none => .internal cid
      | some l =>
          if l = 0 then .internal cid
          else .fresh (c.messages.drop (c.messages.length - l))

/-- Read the current contents of a returned history list. -/
def readHistoryRef (s : Store) (h : HistoryRef) : List Message :=
  match h with
  | .internal cid => (findConv s.conversations cid).elim [] (fun c => c.messages)
  | .fresh msgs => msgs

/-- The caller executes `h.append(m)` on the list object the store returned:
through an internal reference this mutates the store's own record. -/
def callerAppend (s : Store) (h : HistoryRef) (m : Message) : Store :=
  match h with
  | .internal cid =>
      let cs1 := updateConv s.conversations cid
        (fun c => { c with messages := c.messages ++ [m] })
      { s with conversations := cs1 }
  | .fresh _ => s

/-! ### `create_contextual_query` (`api.py`) -/

/-- `conversation_context.get('message_count', 0)`. -/
def ctxGetNat (ctx : List (String × CtxVal)) (k : String) : Nat :=
  match ctx.find? (fun e => e.1 == k) with
  | some (_, .nat n) => n
  | _ => 0

/-- `conversation_context.get('recent_messages', [])`. -/
def ctxGetMsgs (ctx : List (String × CtxVal)) (k : String) : List Message :=
  match ctx.find? (fun e => e.1 == k) with
  | some (_, .msgs l) => l
  | _ => []

/-- The fixed instruction appended after the current question. -/
def contextInstruction : String :=
  "\n\nPlease answer the current question considering the conversation context above. If the current question references something from the previous conversation, use that context to provide a more complete answer."

/-- `create_contextual_query(user_message, conversation_context)`. -/
def createContextualQuery (userMessage : String)
    (ctx : List (String × CtxVal)) : String :=
  if ctx = [] ∨ ctxGetNat ctx "message_count" ≤ 1 then userMessage
  else
    let recent := ctxGetMsgs ctx "recent_messages"
    if recent = [] then userMessage
    else
      let parts := (recent.drop (recent.length - 3)).map
        (fun m => m.role ++ ": " ++ truncate m.content 150)
      "Previous conversation context:\n" ++ String.intercalate "\n" parts ++
        "\n\nCurrent question: " ++ userMessage ++ contextInstruction

/-! ### Scenario builders used by the bounded-capacity claims -/

/-- The `j`-th identifier of the conversation-creation scenario
(a stand-in for `j+1` distinct `uuid4` outputs; all nonempty and distinct). -/
def scenarioId (j : Nat) : String := String.mk (List.replicate (j + 1) 'a')

/-- The conversation record the scenario's `j`-th creation produces. -/
def scenarioEntry (j : Nat) : ConvEntry :=
  (scenarioId j, newConv (scenarioId j) j)

/-- Create `n` conversations in a row (fresh ids, strictly increasing clock). -/
def buildMany (maxC : Nat) : Nat → Store
  | 0 => emptyStore maxC 50
  | n + 1 => (startConversation (buildMany maxC n) none (scenarioId n) n).2

/-- Append a batch of `(role, content)` messages to one conversation,
with a strictly increasing clock. -/
def appendMany (cid : String) : Store → List (String × String) → Nat → Store
  | s, [], _ => s
  | s, (r, c) :: rest, t => appendMany cid (addMessage s cid r c [] t).2 rest (t + 1)

/-- The message records an `appendMany` batch starting at time `t` creates. -/
def toMsgs : List (String × String) → Nat → List Message
  | [], _ => []
  | (r, c) :: rest, t =>
      { role := r, content := c, timestamp := t, metadata := [] } :: toMsgs rest (t + 1)

/-! ### Concrete data used by counterexamples and witnesses -/

def demoMsg (r c : String) (t : Nat) : Message :=
  { role := r, content := c, timestamp := t, metadata := [] }

/-- The three-message conversation of the spec's context-summary example. -/
def demoConv : Conv :=
  { id := "c", created_at := 0, last_updated := 2,
    messages := [demoMsg "user" "What is 1+1?" 0, demoMsg "assistant" "2" 1,
                 demoMsg "user" "What about 3+4?" 2],
    context := [], metadata := [] }

def demoStore : Store :=
  { max_conversations := 100, max_messages_per_conversation := 50,
    conversations := [("c", demoConv)], persisted := .missing }

/-! ### Helper lemmas: `lastN` -/

theorem lastN_of_le {α : Type} {k : Nat} {xs : List α} (h : xs.length ≤ k) :
    lastN k xs = xs := by
  simp [lastN, Nat.sub_eq_zero_of_le h]

theorem length_lastN {α : Type} (k : Nat) (xs : List α) :
    (lastN k xs).length = min k xs.length := by
  simp [lastN]; omega

theorem lastN_absorb {α : Type} (k : Nat) (xs ys : List α) :
    lastN k (lastN k xs ++ ys) = lastN k (xs ++ ys) := by
  by_cases h : xs.length ≤ k
  · rw [lastN_of_le h]
  · have h1 : (xs.drop (xs.length - k)).length = k := by simp; omega
    simp only [lastN, List.length_append, h1]
    rw [List.drop_append_eq_append_drop, List.drop_append_eq_append_drop,
        List.drop_drop, h1]
    congr 1
    · congr 1; omega
    · congr 1; omega

theorem lastN_lastN {α : Type} {k j : Nat} (h : k ≤ j) (xs : List α) :
    lastN k (lastN j xs) = lastN k xs := by
  by_cases hj : xs.length ≤ j
  · rw [lastN_of_le hj]
  · have h1 : (xs.drop (xs.length - j)).length = j := by simp; omega
    simp only [lastN, h1, List.drop_drop]
    congr 1; omega

/-! ### Helper lemmas: `findConv`, `knownId`, `setConv`, `updateConv` -/

theorem findConv_cons_self {e : ConvEntry} {rest : List ConvEntry} {cid : String}
    (h : e.1 = cid) : findConv (e :: rest) cid = some e.2 := by
  simp [findConv, List.find?, h]

theorem findConv_cons_of_ne {e : ConvEntry} {rest : List ConvEntry} {cid : String}
    (h : e.1 ≠ cid) : findConv (e :: rest) cid = findConv rest cid := by
  have hb : (e.1 == cid) = false := by simp [h]
  simp only [findConv, List.find?, hb]

theorem findConv_eq_none_iff {cs : List ConvEntry} {cid : String} :
    findConv cs cid = none ↔ cid ∉ cs.map Prod.fst := by
  induction cs with
  | nil => simp [findConv]
  | cons e rest ih =>
      by_cases h : e.1 = cid
      · simp [findConv_cons_self h, h]
      · rw [findConv_cons_of_ne h, ih]
        simp only [List.map_cons, List.mem_cons, not_or]
        constructor
        · intro hn; exact ⟨fun hc => h hc.symm, hn⟩
        · intro hn; exact hn.2

theorem findConv_ne_none_of_mem {cs : List ConvEntry} {cid : String} {c : Conv}
    (h : (cid, c) ∈ cs) : findConv cs cid ≠ none := by
  intro hn
  exact (findConv_eq_none_iff.mp hn) (by
    exact List.mem_map.mpr ⟨(cid, c), h, rfl⟩)

theorem findConv_eq_of_nodup {cs : List ConvEntry} {cid : String} {c : Conv}
    (hnd : (cs.map Prod.fst).Nodup) (h : (cid, c) ∈ cs) :
    findConv cs cid = some c := by
  induction cs with
  | nil => simp at h
  | cons e rest ih =>
      rcases List.mem_cons.mp h with h1 | h1
      · subst h1; simp [findConv, List.find?]
      · rw [List.map_cons] at hnd
        have hnd' := List.nodup_cons.mp hnd
        have hne : e.1 ≠ cid := by
          intro hx
          have hmem : cid ∈ rest.map Prod.fst :=
            List.mem_map.mpr ⟨(cid, c), h1, rfl⟩
          exact hnd'.1 (hx ▸ hmem)
        rw [findConv_cons_of_ne hne]
        exact ih hnd'.2 h1

theorem knownId_eq_false {s : Store} {cid : String}
    (h : findConv s.conversations cid = none) : knownId s cid = false := by
  have : s.conversations.find? (fun e => e.1 == cid) = none :=
    Option.map_eq_none'.mp h
  simp [knownId, this]

theorem knownId_eq_true {s : Store} {cid : String} {c : Conv}
    (h : findConv s.conversations cid = some c) : knownId s cid = true := by
  rcases Option.map_eq_some'.mp h with ⟨e, he, _⟩
  simp [knownId, he]

theorem setConv_of_not_mem {cs : List ConvEntry} {cid : String} (c : Conv)
    (h : cid ∉ cs.map Prod.fst) : setConv cs cid c = cs ++ [(cid, c)] := by
  induction cs with
  | nil => rfl
  | cons e rest ih =>
      have hne : e.1 ≠ cid := by
        intro hx; exact h (by simp [hx])
      have hb : (e.1 == cid) = false := by simp [hne]
      simp only [setConv, hb, Bool.false_eq_true, if_false, List.cons_append]
      rw [ih (by intro hx; exact h (by simp [hx]))]

theorem findConv_setConv_self (cs : List ConvEntry) (cid : String) (c : Conv) :
    findConv (setConv cs cid c) cid = some c := by
  induction cs with
  | nil => simp [setConv, findConv, List.find?]
  | cons e rest ih =>
      by_cases h : e.1 = cid
      · simp [setConv, h, findConv, List.find?]
      · have hb : (e.1 == cid) = false := by simp [h]
        simp only [setConv, hb, Bool.false_eq_true, if_false, findConv,
          List.find?]
        rw [← findConv]
        exact ih

theorem mem_setConv {cs : List ConvEntry} {cid : String} {c : Conv} {e : ConvEntry}
    (h : e ∈ setConv cs cid c) : e ∈ cs ∨ e = (cid, c) := by
  induction cs with
  | nil => simp [setConv] at h; exact Or.inr h
  | cons a rest ih =>
      by_cases ha : a.1 = cid
      · have hb : (a.1 == cid) = true := by simp [ha]
        simp only [setConv, hb, if_true, List.mem_cons] at h
        rcases h with h | h
        · exact Or.inr h
        · exact Or.inl (List.mem_cons_of_mem _ h)
      · have hb : (a.1 == cid) = false := by simp [ha]
        simp only [setConv, hb, Bool.false_eq_true, if_false, List.mem_cons] at h
        rcases h with h | h
        · exact Or.inl (by simp [h])
        · rcases ih h with h1 | h1
          · exact Or.inl (List.mem_cons_of_mem _ h1)
          · exact Or.inr h1

theorem setConv_map_fst_of_not_mem {cs : List ConvEntry} {cid : String} (c : Conv)
    (h : cid ∉ cs.map Prod.fst) :
    (setConv cs cid c).map Prod.fst = cs.map Prod.fst ++ [cid] := by
  rw [setConv_of_not_mem c h, List.map_append]; rfl

theorem length_setConv_of_not_mem {cs : List ConvEntry} {cid : String} (c : Conv)
    (h : cid ∉ cs.map Prod.fst) :
    (setConv cs cid c).length = cs.length + 1 := by
  rw [setConv_of_not_mem c h]; simp

theorem length_setConv_of_mem {cs : List ConvEntry} {cid : String} (c : Conv)
    (h : cid ∈ cs.map Prod.fst) : (setConv cs cid c).length = cs.length := by
  induction cs with
  | nil => simp at h
  | cons a rest ih =>
      by_cases ha : a.1 = cid
      · have hb : (a.1 == cid) = true := by simp [ha]
        simp [setConv, hb]
      · have hb : (a.1 == cid) = false := by simp [ha]
        have : cid ∈ rest.map Prod.fst := by
          rcases List.mem_cons.mp h with h1 | h1
          · exact absurd h1.symm ha
          · exact h1
        simp [setConv, hb, ih this]

theorem setConv_map_fst_of_mem {cs : List ConvEntry} {cid : String} (c : Conv)
    (h : cid ∈ cs.map Prod.fst) :
    (setConv cs cid c).map Prod.fst = cs.map Prod.fst := by
  induction cs with
  | nil => simp at h
  | cons a rest ih =>
      by_cases ha : a.1 = cid
      · have hb : (a.1 == cid) = true := by simp [ha]
        simp [setConv, hb, ha]
      · have hb : (a.1 == cid) = false := by simp [ha]
        have : cid ∈ rest.map Prod.fst := by
          rcases List.mem_cons.mp h with h1 | h1
          · exact absurd h1.symm ha
          · exact h1
        simp [setConv, hb, ih this]

theorem updateConv_map_fst (cs : List ConvEntry) (cid : String) (f : Conv → Conv) :
    (updateConv cs cid f).map Prod.fst = cs.map Prod.fst := by
  simp only [updateConv, List.map_map]
  apply List.map_congr_left
  intro e _
  by_cases h : e.1 = cid <;> simp [h]

theorem length_updateConv (cs : List ConvEntry) (cid : String) (f : Conv → Conv) :
    (updateConv cs cid f).length = cs.length := by
  simp [updateConv]

theorem findConv_updateConv_self (cs : List ConvEntry) (cid : String)
    (f : Conv → Conv) :
    findConv (updateConv cs cid f) cid = (findConv cs cid).map f := by
  induction cs with
  | nil => simp [updateConv, findConv]
  | cons e rest ih =>
      by_cases h : e.1 = cid
      · have hb : (e.1 == cid) = true := by simp [h]
        simp [updateConv, findConv, List.find?, hb]
      · have hb : (e.1 == cid) = false := by simp [h]
        simp only [updateConv, List.map_cons, hb, Bool.false_eq_true, if_false,
          findConv, List.find?]
        rw [← findConv, ← findConv, ← updateConv]
        exact ih

theorem mem_updateConv {cs : List ConvEntry} {cid : String} {f : Conv → Conv}
    {e : ConvEntry} (h : e ∈ updateConv cs cid f) :
    e ∈ cs ∨ ∃ e' ∈ cs, e'.1 = cid ∧ e = (e'.1, f e'.2) := by
  rcases List.mem_map.mp h with ⟨e', he', hmap⟩
  by_cases hk : e'.1 = cid
  · have hb : (e'.1 == cid) = true := by simp [hk]
    simp only [hb, if_true] at hmap
    exact Or.inr ⟨e', he', hk, hmap.symm⟩
  · have hb : (e'.1 == cid) = false := by simp [hk]
    simp only [hb, Bool.false_eq_true, if_false] at hmap
    exact Or.inl (hmap ▸ he')

theorem updateConv_updateConv (cs : List ConvEntry) (cid : String)
    (f g : Conv → Conv) :
    updateConv (updateConv cs cid f) cid g = updateConv cs cid (fun c => g (f c)) := by
  simp only [updateConv, List.map_map]
  apply List.map_congr_left
  intro e _
  by_cases h : e.1 = cid <;> simp [h]




/-! ### Helper lemmas: the stable sort and the conversation eviction pass -/

theorem length_insertByUpd (a : ConvEntry) (l : List ConvEntry) :
    (insertByUpd a l).length = l.length + 1 := by
  induction l with
  | nil => rfl
  | cons b bs ih =>
      by_cases h : lastUpd a ≤ lastUpd b <;> simp [insertByUpd, h, ih]

theorem length_sortByUpd (l : List ConvEntry) :
    (sortByUpd l).length = l.length := by
  induction l with
  | nil => rfl
  | cons a as ih => simp [sortByUpd, length_insertByUpd, ih]

theorem insertByUpd_perm (a : ConvEntry) (l : List ConvEntry) :
    List.Perm (insertByUpd a l) (a :: l) := by
  induction l with
  | nil => rfl
  | cons b bs ih =>
      by_cases h : lastUpd a ≤ lastUpd b
      · simp [insertByUpd, h]
      · simp only [insertByUpd, h, if_false]
        exact (ih.cons b).trans (List.Perm.swap a b bs)

theorem sortByUpd_perm (l : List ConvEntry) : List.Perm (sortByUpd l) l := by
  induction l with
  | nil => rfl
  | cons a as ih => exact (insertByUpd_perm a (sortByUpd as)).trans (ih.cons a)

theorem mem_sortByUpd {l : List ConvEntry} {e : ConvEntry} :
    e ∈ sortByUpd l ↔ e ∈ l :=
  (sortByUpd_perm l).mem_iff

theorem sortByUpd_eq_self {l : List ConvEntry}
    (h : l.Pairwise (fun a b => lastUpd a ≤ lastUpd b)) : sortByUpd l = l := by
  induction l with
  | nil => rfl
  | cons a as ih =>
      have h' := List.pairwise_cons.mp h
      rw [sortByUpd, ih h'.2]
      cases as with
      | nil => rfl
      | cons b bs =>
          have hab : lastUpd a ≤ lastUpd b := h'.1 b (by simp)
          simp [insertByUpd, hab]

theorem insertByUpd_append_last {a x : ConvEntry} (l : List ConvEntry)
    (h : lastUpd a ≤ lastUpd x) :
    insertByUpd a (l ++ [x]) = insertByUpd a l ++ [x] := by
  induction l with
  | nil => simp [insertByUpd, h]
  | cons b bs ih =>
      by_cases hb : lastUpd a ≤ lastUpd b <;>
        simp [insertByUpd, hb, ih]

theorem sortByUpd_append_last {x : ConvEntry} {l : List ConvEntry}
    (h : ∀ e ∈ l, lastUpd e ≤ lastUpd x) :
    sortByUpd (l ++ [x]) = sortByUpd l ++ [x] := by
  induction l with
  | nil => rfl
  | cons a as ih =>
      simp only [List.cons_append, sortByUpd, List.append_eq]
      rw [ih (fun e he => h e (by simp [he]))]
      exact insertByUpd_append_last _ (h a (by simp))

theorem mem_cleanupList {maxC : Nat} {cs : List ConvEntry} {e : ConvEntry}
    (h : e ∈ cleanupList maxC cs) : e ∈ cs := by
  by_cases hle : cs.length ≤ maxC
  · simpa [cleanupList, hle] using h
  · simp only [cleanupList, hle, if_false] at h
    exact (List.mem_filter.mp h).1

theorem filter_not_mem_take_drop :
    ∀ (cs : List ConvEntry), (cs.map Prod.fst).Nodup → ∀ (t : Nat),
      cs.filter (fun e => !(((cs.take t).map Prod.fst).contains e.1)) = cs.drop t := by
  intro cs
  induction cs with
  | nil => intro _ t; simp
  | cons a rest ih =>
      intro hnd t
      rw [List.map_cons] at hnd
      have hnd' := List.nodup_cons.mp hnd
      cases t with
      | zero =>
          simp only [List.take_zero, List.map_nil, List.contains_nil,
            Bool.not_false, List.drop_zero]
          exact List.filter_eq_self.mpr (fun _ _ => rfl)
      | succ t' =>
          simp only [List.take_succ_cons, List.map_cons, List.drop_succ_cons]
          have ha : (((a.1 :: (rest.take t').map Prod.fst)).contains a.1) = true := by
            simp
          rw [List.filter_cons]
          simp only [ha, Bool.not_true, Bool.false_eq_true, if_false]
          have hcongr : ∀ e ∈ rest,
              (!((a.1 :: (rest.take t').map Prod.fst).contains e.1)) =
              (!(((rest.take t').map Prod.fst).contains e.1)) := by
            intro e he
            have hne : e.1 ≠ a.1 := by
              intro hx
              exact hnd'.1 (hx ▸ List.mem_map.mpr ⟨e, he, rfl⟩)
            simp [List.contains_cons, hne]
          rw [List.filter_congr hcongr]
          exact ih hnd'.2 t'

theorem cleanupList_eq_drop {maxC : Nat} {cs : List ConvEntry}
    (hnd : (cs.map Prod.fst).Nodup)
    (hsort : cs.Pairwise (fun a b => lastUpd a ≤ lastUpd b)) :
    cleanupList maxC cs = cs.drop (cs.length - maxC) := by
  by_cases hle : cs.length ≤ maxC
  · simp [cleanupList, hle, Nat.sub_eq_zero_of_le hle]
  · simp only [cleanupList, hle, if_false]
    rw [sortByUpd_eq_self hsort]
    exact filter_not_mem_take_drop cs hnd _

theorem contains_eq_true_of_mem {l : List String} {a : String} (h : a ∈ l) :
    l.contains a = true :=
  List.contains_iff_exists_mem_beq.mpr ⟨a, h, by simp⟩

theorem contains_eq_false_of_not_mem {l : List String} {a : String}
    (h : a ∉ l) : l.contains a = false := by
  cases hc : l.contains a
  · rfl
  · rcases List.contains_iff_exists_mem_beq.mp hc with ⟨b, hb, hab⟩
    rw [beq_iff_eq] at hab
    exact absurd (hab ▸ hb : a ∈ l) h

theorem cleanupList_length_of_nodup {maxC : Nat} {cs : List ConvEntry}
    (hnd : (cs.map Prod.fst).Nodup) (hlt : maxC < cs.length) :
    (cleanupList maxC cs).length = maxC := by
  have hle : ¬ cs.length ≤ maxC := by omega
  simp only [cleanupList, hle, if_false]
  set t := cs.length - maxC with ht
  set K := ((sortByUpd cs).take t).map Prod.fst with hK
  have hperm : List.Perm (cs.filter (fun e => !(K.contains e.1)))
      ((sortByUpd cs).filter (fun e => !(K.contains e.1))) :=
    ((sortByUpd_perm cs).filter _).symm
  have hnds : ((sortByUpd cs).map Prod.fst).Nodup :=
    (((sortByUpd_perm cs).map Prod.fst).nodup_iff).mpr hnd
  have hsplit : (sortByUpd cs).take t ++ (sortByUpd cs).drop t = sortByUpd cs :=
    List.take_append_drop t _
  have hndsplit : (((sortByUpd cs).take t).map Prod.fst ++
      ((sortByUpd cs).drop t).map Prod.fst).Nodup := by
    rw [← List.map_append, hsplit]; exact hnds
  have hdisj := (List.nodup_append.mp hndsplit).2.2
  have hA : ((sortByUpd cs).take t).filter (fun e => !(K.contains e.1)) = [] := by
    apply List.filter_eq_nil_iff.mpr
    intro a ha hpa
    have hmem : a.1 ∈ K := hK ▸ List.mem_map.mpr ⟨a, ha, rfl⟩
    rw [contains_eq_true_of_mem hmem] at hpa
    exact absurd hpa (by simp)
  have hB : ((sortByUpd cs).drop t).filter (fun e => !(K.contains e.1)) =
      (sortByUpd cs).drop t := by
    apply List.filter_eq_self.mpr
    intro b hb
    have hnotin : b.1 ∉ K := by
      intro hin
      exact (List.disjoint_left.mp hdisj hin) (List.mem_map.mpr ⟨b, hb, rfl⟩)
    simpa using hnotin
  have hfil : (sortByUpd cs).filter (fun e => !(K.contains e.1)) =
      (sortByUpd cs).drop t := by
    rw [← hsplit, List.filter_append, hA, hB, List.nil_append]
    rw [hsplit]
  rw [hperm.length_eq, hfil, List.length_drop, length_sortByUpd]
  omega

theorem cleanup_keeps_last {maxC : Nat} {cs : List ConvEntry} {x : ConvEntry}
    (h1 : 1 ≤ maxC) (h2 : x.1 ∉ cs.map Prod.fst)
    (h3 : ∀ e ∈ cs, lastUpd e ≤ lastUpd x) :
    x ∈ cleanupList maxC (cs ++ [x]) := by
  by_cases hle : (cs ++ [x]).length ≤ maxC
  · unfold cleanupList
    rw [if_pos hle]
    simp
  · unfold cleanupList
    rw [if_neg hle]
    apply List.mem_filter.mpr
    refine ⟨by simp, ?_⟩
    rw [sortByUpd_append_last h3]
    have ht : (cs ++ [x]).length - maxC ≤ (sortByUpd cs).length := by
      rw [length_sortByUpd]; simp at hle ⊢; omega
    rw [List.take_append_of_le_length ht]
    have hnotin : x.1 ∉ (((sortByUpd cs).take ((cs ++ [x]).length - maxC)).map
        Prod.fst) := by
      intro hin
      rcases List.mem_map.mp hin with ⟨e, he, hef⟩
      have : e ∈ cs := mem_sortByUpd.mp (List.take_subset _ _ he)
      exact h2 (hef ▸ List.mem_map.mpr ⟨e, this, rfl⟩)
    simpa using hnotin

/-! ### Field-preservation facts for the store operations -/

theorem cleanupOldMessages_maxC (s : Store) (cid : String) :
    (cleanupOldMessages s cid).max_conversations = s.max_conversations := by
  unfold cleanupOldMessages
  split
  · rfl
  · split <;> rfl

theorem cleanupOldMessages_maxM (s : Store) (cid : String) :
    (cleanupOldMessages s cid).max_messages_per_conversation =
      s.max_messages_per_conversation := by
  unfold cleanupOldMessages
  split
  · rfl
  · split <;> rfl

theorem startConversation_maxC (s : Store) (cid? : Option String)
    (fid : String) (t : Nat) :
    ((startConversation s cid? fid t).2).max_conversations =
      s.max_conversations := by
  unfold startConversation
  split <;> rfl

theorem startConversation_maxM (s : Store) (cid? : Option String)
    (fid : String) (t : Nat) :
    ((startConversation s cid? fid t).2).max_messages_per_conversation =
      s.max_messages_per_conversation := by
  unfold startConversation
  split <;> rfl

theorem addMessage_maxC (s : Store) (cid r c : String)
    (md : List (String × String)) (t : Nat) :
    ((addMessage s cid r c md t).2).max_conversations = s.max_conversations := by
  unfold addMessage
  split
  · simp [saveToStorage, cleanupOldMessages_maxC]
  · rfl

theorem addMessage_maxM (s : Store) (cid r c : String)
    (md : List (String × String)) (t : Nat) :
    ((addMessage s cid r c md t).2).max_messages_per_conversation =
      s.max_messages_per_conversation := by
  unfold addMessage
  split
  · simp [saveToStorage, cleanupOldMessages_maxM]
  · rfl

/-! ### Round-trip of the JSON serialisation -/

theorem decodeMeta_encodeMeta (m : List (String × String)) :
    decodeMeta (encodeMeta m) = some m := by
  induction m with
  | nil => rfl
  | cons p rest ih =>
      cases p with
      | mk k v =>
          simp only [encodeMeta, List.map_cons, decodeMeta, decodeMetaFields]
          simp only [encodeMeta, decodeMeta] at ih
          rw [ih]
          rfl

theorem decodeMessage_encodeMessage (m : Message) :
    decodeMessage (encodeMessage m) = some m := by
  simp [encodeMessage, decodeMessage, decodeMeta_encodeMeta m.metadata]

theorem decodeMessages_encode (ms : List Message) :
    decodeMessages (ms.map encodeMessage) = some ms := by
  induction ms with
  | nil => rfl
  | cons m rest ih =>
      simp [decodeMessages, decodeMessage_encodeMessage, ih]

theorem decodeConv_encodeConv (c : Conv) :
    decodeConv (encodeConv c) = some c := by
  simp [encodeConv, decodeConv, decodeMessages_encode, decodeMeta_encodeMeta]

theorem decodeConversations_encode (cs : List ConvEntry) :
    decodeConversations (encodeConversations cs) = some cs := by
  induction cs with
  | nil => rfl
  | cons e rest ih =>
      simp only [encodeConversations, List.map_cons, decodeConversations,
        decodeConvFields, decodeConv_encodeConv]
      simp only [encodeConversations, decodeConversations] at ih
      rw [ih]
      rfl

theorem saveToStorage_conversations (s : Store) :
    (saveToStorage s).conversations = s.conversations := rfl

theorem cleanupOldMessages_map_fst (s : Store) (cid : String) :
    (cleanupOldMessages s cid).conversations.map Prod.fst =
      s.conversations.map Prod.fst := by
  unfold cleanupOldMessages
  split
  · rfl
  · split
    · rfl
    · simpa using updateConv_map_fst _ _ _

theorem addMessage_map_fst (s : Store) (cid r x : String)
    (md : List (String × String)) (t : Nat) :
    ((addMessage s cid r x md t).2).conversations.map Prod.fst =
      s.conversations.map Prod.fst := by
  unfold addMessage
  split
  · rw [saveToStorage_conversations, cleanupOldMessages_map_fst]
    simpa using updateConv_map_fst _ _ _
  · rfl

/-- The message record `add_message` builds. -/
def mkMessage (r x : String) (md : List (String × String)) (t : Nat) : Message :=
  { role := r, content := x, timestamp := t, metadata := md }

/-- `_cleanup_old_messages` on a present conversation trims its message list
to the trailing `max_messages_per_conversation` entries (for a positive
bound the guard and the slice agree on this single description). -/
theorem cleanupOldMessages_findConv_self {s : Store} {cid : String} {c1 : Conv}
    (h1 : 1 ≤ s.max_messages_per_conversation)
    (hc : findConv s.conversations cid = some c1) :
    findConv (cleanupOldMessages s cid).conversations cid =
      some { c1 with
        messages := lastN s.max_messages_per_conversation c1.messages } := by
  unfold cleanupOldMessages
  rw [hc]
  dsimp only
  by_cases hlen : c1.messages.length ≤ s.max_messages_per_conversation
  · rw [if_pos hlen, hc, lastN_of_le hlen]
  · rw [if_neg hlen]
    dsimp only
    rw [findConv_updateConv_self, hc]
    simp only [Option.map_some']
    have hsl : lastSlice c1.messages s.max_messages_per_conversation =
        lastN s.max_messages_per_conversation c1.messages := by
      simp only [lastSlice, lastN]
      rw [if_neg (by omega)]
    rw [hsl]

/-- Effect of a successful `add_message` on the addressed conversation: the
new message is appended and the list is trimmed to its trailing
`max_messages_per_conversation` entries (for a positive bound the guard and
the slice agree on this single description). -/
theorem addMessage_findConv_self {s : Store} {cid : String} {c : Conv}
    (r x : String) (md : List (String × String)) (t : Nat)
    (h1 : 1 ≤ s.max_messages_per_conversation)
    (hc : findConv s.conversations cid = some c) :
    findConv ((addMessage s cid r x md t).2).conversations cid =
      some { c with
        messages := lastN s.max_messages_per_conversation
          (c.messages ++ [mkMessage r x md t]),
        last_updated := t } := by
  have hk := knownId_eq_true hc
  have hfind1 : findConv (updateConv s.conversations cid (fun c' =>
      { c' with messages := c'.messages ++ [mkMessage r x md t],
                last_updated := t })) cid =
      some { c with messages := c.messages ++ [mkMessage r x md t],
                    last_updated := t } := by
    rw [findConv_updateConv_self, hc]
    rfl
  simp only [mkMessage] at hfind1 ⊢
  unfold addMessage
  simp only [hk, if_true]
  rw [saveToStorage_conversations]
  unfold cleanupOldMessages
  dsimp only
  rw [hfind1]
  dsimp only
  by_cases hlen : (c.messages ++
      [({ role := r, content := x, timestamp := t, metadata := md } : Message)]).length ≤
      s.max_messages_per_conversation
  · rw [if_pos hlen]
    dsimp only
    rw [hfind1, lastN_of_le hlen]
  · rw [if_neg hlen]
    dsimp only
    rw [findConv_updateConv_self, hfind1]
    simp only [Option.map_some']
    have hsl : lastSlice (c.messages ++
        [({ role := r, content := x, timestamp := t, metadata := md } : Message)])
          s.max_messages_per_conversation =
        lastN s.max_messages_per_conversation (c.messages ++
        [({ role := r, content := x, timestamp := t, metadata := md } : Message)]) := by
      simp only [lastSlice, lastN]
      rw [if_neg (by omega)]
    rw [hsl]

theorem length_toMsgs : ∀ (ps : List (String × String)) (t : Nat),
    (toMsgs ps t).length = ps.length := by
  intro ps
  induction ps with
  | nil => intro t; rfl
  | cons p rest ih =>
      intro t
      cases p with
      | mk r x => simp [toMsgs, ih]

/-- Appending a batch of messages in sequence: the surviving message list is
the trailing `max_messages_per_conversation` slice of everything ever
appended, in order. -/
theorem appendMany_findConv :
    ∀ (pairs : List (String × String)) (s : Store) (cid : String) (t : Nat)
      (c : Conv),
      1 ≤ s.max_messages_per_conversation →
      findConv s.conversations cid = some c →
      c.messages.length ≤ s.max_messages_per_conversation →
      ∃ c', findConv (appendMany cid s pairs t).conversations cid = some c' ∧
        c'.messages = lastN s.max_messages_per_conversation
          (c.messages ++ toMsgs pairs t) := by
  intro pairs
  induction pairs with
  | nil =>
      intro s cid t c h1 hc hb
      exact ⟨c, hc, by rw [toMsgs, List.append_nil, lastN_of_le hb]⟩
  | cons p rest ih =>
      intro s cid t c h1 hc hb
      cases p with
      | mk r x =>
      have hstep := addMessage_findConv_self r x [] t h1 hc
      have hmaxM := addMessage_maxM s cid r x [] t
      have h1' : 1 ≤ ((addMessage s cid r x [] t).2).max_messages_per_conversation := by
        rw [hmaxM]; exact h1
      have hb' : ({ c with
          messages := lastN s.max_messages_per_conversation
            (c.messages ++ [mkMessage r x [] t]),
          last_updated := t } : Conv).messages.length ≤
          ((addMessage s cid r x [] t).2).max_messages_per_conversation := by
        rw [hmaxM]
        dsimp only
        rw [length_lastN]
        omega
      rcases ih ((addMessage s cid r x [] t).2) cid (t + 1) _ h1' hstep hb'
        with ⟨c', hc', hm⟩
      refine ⟨c', ?_, ?_⟩
      · simpa [appendMany] using hc'
      · rw [hm, hmaxM]
        dsimp only
        rw [lastN_absorb, List.append_assoc]
        rfl

theorem scenarioId_injective : Function.Injective scenarioId := by
  intro i j h
  have hd : List.replicate (i + 1) 'a' = List.replicate (j + 1) 'a' :=
    congrArg String.data h
  have hl := congrArg List.length hd
  simp only [List.length_replicate] at hl
  omega

theorem lastUpd_scenarioEntry (j : Nat) : lastUpd (scenarioEntry j) = j := rfl

theorem map_fst_scenarioEntries (l : List Nat) :
    (l.map scenarioEntry).map Prod.fst = l.map scenarioId := by
  rw [List.map_map]
  rfl

/-- Running the creation scenario: after `n` creations the store holds the
`min n maxC` most recently created conversations, in creation order. -/
theorem buildMany_conversations (maxC : Nat) :
    ∀ n, (buildMany maxC n).conversations =
        ((List.range n).map scenarioEntry).drop (n - maxC) ∧
      (buildMany maxC n).max_conversations = maxC := by
  intro n
  induction n with
  | zero => exact ⟨by simp [buildMany, emptyStore], rfl⟩
  | succ n ih =>
      rcases ih with ⟨hconv, hmax⟩
      constructor
      case right =>
        show ((startConversation (buildMany maxC n) none (scenarioId n) n).2).max_conversations = maxC
        rw [startConversation_maxC, hmax]
      show ((startConversation (buildMany maxC n) none (scenarioId n) n).2).conversations = _
      unfold startConversation
      simp only [truthy, Bool.false_and, Bool.false_eq_true, if_false]
      rw [saveToStorage_conversations]
      unfold cleanupOldConversations
      dsimp only
      rw [hmax, hconv]
      have hfresh : scenarioId n ∉
          ((((List.range n).map scenarioEntry).drop (n - maxC)).map Prod.fst) := by
        intro hin
        have hin2 : scenarioId n ∈ ((List.range n).map scenarioEntry).map Prod.fst := by
          have hsub := List.map_subset (f := Prod.fst)
            (List.drop_subset (n - maxC) ((List.range n).map scenarioEntry))
          exact hsub hin
        rw [map_fst_scenarioEntries] at hin2
        rcases List.mem_map.mp hin2 with ⟨j, hj, hje⟩
        have := scenarioId_injective hje
        subst this
        exact absurd (List.mem_range.mp hj) (by omega)
      rw [setConv_of_not_mem _ hfresh]
      have hle1 : n - maxC ≤ (((List.range n).map scenarioEntry)).length := by
        simp only [List.length_map, List.length_range]
        omega
      rw [← List.drop_append_of_le_length hle1]
      have hstep : ((List.range n).map scenarioEntry) ++
          [(scenarioId n, newConv (scenarioId n) n)] =
          (List.range (n + 1)).map scenarioEntry := by
        rw [List.range_succ, List.map_append]
        rfl
      rw [hstep]
      have hndkeys : (((List.range (n + 1)).map scenarioEntry).map Prod.fst).Nodup := by
        rw [map_fst_scenarioEntries]
        exact (List.nodup_range (n + 1)).map scenarioId_injective
      have hnd2 : ((((List.range (n + 1)).map scenarioEntry).drop (n - maxC)).map
          Prod.fst).Nodup := by
        rw [List.map_drop]
        exact List.Nodup.sublist (List.drop_sublist _ _) hndkeys
      have hsort : (((List.range (n + 1)).map scenarioEntry).drop (n - maxC)).Pairwise
          (fun a b => lastUpd a ≤ lastUpd b) := by
        have hp : ((List.range (n + 1)).map scenarioEntry).Pairwise
            (fun a b => lastUpd a ≤ lastUpd b) :=
          List.Pairwise.map scenarioEntry (fun i j hij => le_of_lt hij)
            (List.pairwise_lt_range (n + 1))
        exact List.Pairwise.sublist (List.drop_sublist _ _) hp
      rw [cleanupList_eq_drop hnd2 hsort, List.drop_drop]
      congr 1
      simp only [List.length_drop, List.length_map, List.length_range]
      omega

/-! ### Shared helpers for the claim theorems -/

theorem getConversationContext_eq_none {s : Store} {cid : String}
    (h : findConv s.conversations cid = none) :
    getConversationContext s cid = [] := by
  unfold getConversationContext
  rw [h]

theorem getConversationContext_eq_some {s : Store} {cid : String} {c : Conv}
    (hc : findConv s.conversations cid = some c) :
    getConversationContext s cid =
      [("conversation_id", .str cid),
       ("message_count", .nat c.messages.length),
       ("last_updated", .nat c.last_updated),
       ("recent_messages", .msgs (lastN 5 c.messages)),
       ("context_summary", .str (createContextSummary c.messages)),
       ("metadata", .meta c.metadata)] := by
  unfold getConversationContext
  rw [hc]
  rfl

theorem findConv_of_knownId {s : Store} {cid : String}
    (h : knownId s cid = true) : ∃ c, findConv s.conversations cid = some c := by
  unfold knownId at h
  rcases Option.isSome_iff_exists.mp h with ⟨e, he⟩
  exact ⟨e.2, by rw [findConv, he]; rfl⟩

/-- Each entry of `updateConv cs cid f` is either an untouched entry whose key
is not `cid`, or the image under `f` of a `cid`-keyed entry. -/
theorem mem_updateConv_cases {cs : List ConvEntry} {cid : String}
    {f : Conv → Conv} {e : ConvEntry} (h : e ∈ updateConv cs cid f) :
    (e ∈ cs ∧ e.1 ≠ cid) ∨ ∃ e' ∈ cs, e'.1 = cid ∧ e = (cid, f e'.2) := by
  rcases List.mem_map.mp h with ⟨e', he', hmap⟩
  by_cases hk : e'.1 = cid
  · have hb : (e'.1 == cid) = true := by simp [hk]
    simp only [hb, if_true] at hmap
    exact Or.inr ⟨e', he', hk, by rw [← hmap, hk]⟩
  · have hb : (e'.1 == cid) = false := by simp [hk]
    simp only [hb, Bool.false_eq_true, if_false] at hmap
    subst hmap
    exact Or.inl ⟨he', hk⟩

theorem eq_of_keyed_mem_nodup {cs : List ConvEntry} {cid : String} {c c' : Conv}
    (hnd : (cs.map Prod.fst).Nodup) (hmem : (cid, c') ∈ cs)
    (hc : findConv cs cid = some c) : c' = c := by
  have := findConv_eq_of_nodup hnd hmem
  rw [this] at hc
  injection hc

theorem nodup_keys_setConv {cs : List ConvEntry} {cid : String} (c : Conv)
    (hnd : (cs.map Prod.fst).Nodup) :
    ((setConv cs cid c).map Prod.fst).Nodup := by
  by_cases h : cid ∈ cs.map Prod.fst
  · rw [setConv_map_fst_of_mem c h]; exact hnd
  · rw [setConv_map_fst_of_not_mem c h]
    apply List.Nodup.append hnd (List.nodup_singleton cid)
    intro a ha hb
    rw [List.mem_singleton.mp hb] at ha
    exact h ha

theorem cleanupOldMessages_length (s : Store) (cid : String) :
    (cleanupOldMessages s cid).conversations.length = s.conversations.length := by
  unfold cleanupOldMessages
  split
  · rfl
  · split
    · rfl
    · simpa using length_updateConv _ _ _

/-- Per-conversation message-count invariant. -/
def MsgBound (s : Store) : Prop :=
  ∀ e ∈ s.conversations, e.2.messages.length ≤ s.max_messages_per_conversation

/-! ## Claim theorems -/

/-- C1 (counterexample): for an existing conversation the context object's
field set is `conversation_id, message_count, last_updated, recent_messages,
context_summary, metadata` — there is no field named `id`, contrary to the
claimed field set `{ id, message_count, ... }`. -/
theorem context_field_names_counterexample :
    findConv demoStore.conversations "c" = some demoConv ∧
    (getConversationContext demoStore "c").map Prod.fst =
      ["conversation_id", "message_count", "last_updated", "recent_messages",
       "context_summary", "metadata"] ∧
    "id" ∉ (getConversationContext demoStore "c").map Prod.fst := by
  refine ⟨rfl, rfl, ?_⟩
  decide

/-- C1 (amended): for every existing conversation `get_conversation_context`
returns the object with exactly the fields `conversation_id, message_count,
last_updated, recent_messages, context_summary, metadata`, where
`message_count` is the stored message count, `recent_messages` the last 5
stored messages in order, and `context_summary` joins the last 3 messages as
"role: content" (content truncated to 200 characters) with separator " | ";
for zero messages the summary is the fixed no-prior-context sentence; for an
unknown id the result is empty; and on the spec's three-message example the
summary is exactly the expected string. -/
theorem get_conversation_context_spec :
    (∀ s cid, findConv s.conversations cid = none →
      getConversationContext s cid = []) ∧
    (∀ s cid c, findConv s.conversations cid = some c →
      getConversationContext s cid =
        [("conversation_id", .str cid),
         ("message_count", .nat c.messages.length),
         ("last_updated", .nat c.last_updated),
         ("recent_messages", .msgs (lastN 5 c.messages)),
         ("context_summary", .str (createContextSummary c.messages)),
         ("metadata", .meta c.metadata)]) ∧
    createContextSummary [] = "No previous conversation context." ∧
    (∀ msgs : List Message, msgs ≠ [] →
      createContextSummary msgs = String.intercalate " | "
        ((lastN 3 msgs).map (fun m => m.role ++ ": " ++ truncate m.content 200))) ∧
    createContextSummary demoConv.messages =
      "user: What is 1+1? | assistant: 2 | user: What about 3+4?" ∧
    getConversationContext demoStore "c" =
      [("conversation_id", .str "c"),
       ("message_count", .nat 3),
       ("last_updated", .nat 2),
       ("recent_messages", .msgs demoConv.messages),
       ("context_summary",
        .str "user: What is 1+1? | assistant: 2 | user: What about 3+4?"),
       ("metadata", .meta [])] := by
  refine ⟨?_, ?_, rfl, ?_, ?_, ?_⟩
  · intro s cid h
    exact getConversationContext_eq_none h
  · intro s cid c hc
    exact getConversationContext_eq_some hc
  · intro msgs hne
    unfold createContextSummary
    rw [if_neg hne]
    rfl
  · decide
  · decide

/-- C1 (witness): the amended theorem evaluated on the three-message example
conversation and on an unknown id. -/
theorem get_conversation_context_spec_witness :
    getConversationContext demoStore "z" = [] ∧
    getConversationContext demoStore "c" =
      [("conversation_id", .str "c"),
       ("message_count", .nat demoConv.messages.length),
       ("last_updated", .nat demoConv.last_updated),
       ("recent_messages", .msgs (lastN 5 demoConv.messages)),
       ("context_summary", .str (createContextSummary demoConv.messages)),
       ("metadata", .meta demoConv.metadata)] ∧
    createContextSummary demoConv.messages = String.intercalate " | "
      ((lastN 3 demoConv.messages).map
        (fun m => m.role ++ ": " ++ truncate m.content 200)) := by
  refine ⟨get_conversation_context_spec.1 demoStore "z" rfl,
          get_conversation_context_spec.2.1 demoStore "c" demoConv rfl,
          get_conversation_context_spec.2.2.2.1 demoConv.messages (by decide)⟩

/-- C5: on an id that is not in the store, `add_message`,
`update_conversation_metadata` and `delete_conversation` return `False` and
leave the whole store — the in-memory dict and the persisted snapshot —
untouched, while `get_conversation_history` and `get_conversation_context`
return the empty list / empty dict, never an error. -/
theorem unknown_id_safety (s : Store) (cid : String)
    (h : findConv s.conversations cid = none) :
    (∀ r x md t, addMessage s cid r x md t = (false, s)) ∧
    (∀ md t, updateConversationMetadata s cid md t = (false, s)) ∧
    deleteConversation s cid = (false, s) ∧
    (∀ limit, getConversationHistory s cid limit = []) ∧
    getConversationContext s cid = [] := by
  have hk := knownId_eq_false h
  refine ⟨?_, ?_, ?_, ?_, getConversationContext_eq_none h⟩
  · intro r x md t
    unfold addMessage
    rw [hk]
    rfl
  · intro md t
    unfold updateConversationMetadata
    rw [hk]
    rfl
  · unfold deleteConversation
    rw [hk]
    rfl
  · intro limit
    unfold getConversationHistory
    rw [h]

/-- C5 (witness): the safety theorem evaluated on a concrete store and the
never-created id "z". -/
theorem unknown_id_safety_witness :
    addMessage demoStore "z" "user" "hi" [] 7 = (false, demoStore) ∧
    updateConversationMetadata demoStore "z" [("k", "v")] 7 = (false, demoStore) ∧
    deleteConversation demoStore "z" = (false, demoStore) ∧
    getConversationHistory demoStore "z" (some 1) = [] ∧
    getConversationContext demoStore "z" = [] := by
  have h := unknown_id_safety demoStore "z" rfl
  exact ⟨h.1 "user" "hi" [] 7, h.2.1 [("k", "v")] 7, h.2.2.1,
         h.2.2.2.1 (some 1), h.2.2.2.2⟩

/-- C6: serialising the conversations dict and decoding it back is lossless
for every store state; at startup a missing or unparseable snapshot yields
the empty store rather than an error; and reloading what `save_to_storage`
just wrote recovers the exact conversations. -/
theorem persistence_roundtrip :
    (∀ cs : List ConvEntry,
      decodeConversations (encodeConversations cs) = some cs) ∧
    (∀ maxC maxM, (initStore maxC maxM .missing).conversations = []) ∧
    (∀ maxC maxM, (initStore maxC maxM .corrupt).conversations = []) ∧
    (∀ s maxC maxM,
      (loadFromStorage (saveToStorage s).persisted
        (emptyStore maxC maxM)).conversations = s.conversations) := by
  refine ⟨decodeConversations_encode, fun _ _ => rfl, fun _ _ => rfl, ?_⟩
  intro s maxC maxM
  show (loadFromStorage (.saved (encodeConversations s.conversations))
    (emptyStore maxC maxM)).conversations = s.conversations
  unfold loadFromStorage
  dsimp only
  rw [decodeConversations_encode]

/-- C8 (counterexample): a supplied limit of `0` is falsy in
`if limit:`, so `get_conversation_history` returns all three stored
messages instead of the most recent zero entries. -/
theorem history_zero_limit_counterexample :
    getConversationHistory demoStore "c" (some 0) =
      [demoMsg "user" "What is 1+1?" 0, demoMsg "assistant" "2" 1,
       demoMsg "user" "What about 3+4?" 2] ∧
    getConversationHistory demoStore "c" (some 0) ≠ [] := by
  exact ⟨rfl, by decide⟩

/-- C8 (amended): for an existing conversation `get_conversation_history`
returns all messages in chronological order when no limit is supplied, the
most recent `limit` entries for every positive limit, and — because `0` is
falsy — again all messages when the supplied limit is `0`; for an unknown id
it returns the empty sequence. -/
theorem get_conversation_history_spec (s : Store) (cid : String) :
    (findConv s.conversations cid = none →
      ∀ limit, getConversationHistory s cid limit = []) ∧
    (∀ c, findConv s.conversations cid = some c →
      getConversationHistory s cid none = c.messages ∧
      getConversationHistory s cid (some 0) = c.messages ∧
      ∀ l, 1 ≤ l → getConversationHistory s cid (some l) = lastN l c.messages) := by
  constructor
  · intro h limit
    unfold getConversationHistory
    rw [h]
  · intro c hc
    refine ⟨?_, ?_, ?_⟩
    · unfold getConversationHistory
      rw [hc]
    · unfold getConversationHistory
      rw [hc]
      simp
    · intro l hl
      unfold getConversationHistory
      rw [hc]
      dsimp only
      rw [if_neg (by omega : ¬ l = 0)]
      rfl

/-- C8 (witness): the amended theorem evaluated on the three-message example
conversation, including the limit-2 slice. -/
theorem get_conversation_history_spec_witness :
    getConversationHistory demoStore "z" (some 3) = [] ∧
    getConversationHistory demoStore "c" none = demoConv.messages ∧
    getConversationHistory demoStore "c" (some 2) = lastN 2 demoConv.messages := by
  have hz := get_conversation_history_spec demoStore "z"
  have hc := get_conversation_history_spec demoStore "c"
  exact ⟨hz.1 rfl (some 3), (hc.2 demoConv rfl).1,
         (hc.2 demoConv rfl).2.2 2 (by decide)⟩

/-- C9 (code bug): with a falsy limit, `get_conversation_history` returns the
store-internal `messages` list object itself (no copy is made), so a caller
that appends to the returned list mutates the store's own record: after
`h.append(m)` the stored history has grown. `get_all_conversations` likewise
returns only a shallow `dict.copy()`, sharing the nested records. -/
theorem history_aliasing_mutation :
    getConversationHistoryRef demoStore "c" none = .internal "c" ∧
    getConversationHistory
      (callerAppend demoStore (getConversationHistoryRef demoStore "c" none)
        (demoMsg "user" "extra" 9)) "c" none =
      demoConv.messages ++ [demoMsg "user" "extra" 9] := by
  exact ⟨rfl, rfl⟩

/-- C4 (counterexample): `start_conversation` called with a supplied id that
is not known does NOT generate a fresh identifier — it creates the
conversation under the supplied id and returns it (`conversation_id or
self._generate_conversation_id()`), so the returned id "x" differs from the
generator's output. -/
theorem start_conversation_supplied_id_counterexample :
    findConv (emptyStore 100 50).conversations "x" = none ∧
    (startConversation (emptyStore 100 50) (some "x") "fresh-uuid" 0).1 = "x" ∧
    "x" ≠ "fresh-uuid" := by
  exact ⟨rfl, rfl, by decide⟩

/-- C4 (amended): a supplied nonempty id that is already known is returned
unchanged with the store untouched (so calling twice returns it both times
and no message list is reset); a supplied nonempty id that is unknown is
used as-is as the new conversation's id; only when no id is supplied (or the
empty, falsy, string is supplied) is the generated identifier used; the
created record is empty with both timestamps set to the current time; and in
every creating call the state is persisted after eviction. -/
theorem start_conversation_spec :
    (∀ s x fid t c, x ≠ "" → findConv s.conversations x = some c →
      startConversation s (some x) fid t = (x, s)) ∧
    (∀ s x fid t, x ≠ "" → findConv s.conversations x = none →
      (startConversation s (some x) fid t).1 = x) ∧
    (∀ s fid t, (startConversation s none fid t).1 = fid) ∧
    (∀ s fid t, (startConversation s (some "") fid t).1 = fid) ∧
    (∀ cs x t, findConv (setConv cs x (newConv x t)) x = some (newConv x t)) ∧
    (∀ s cid? fid t,
      (truthy cid? && knownId s (cid?.getD "")) = false →
      ((startConversation s cid? fid t).2).persisted =
        .saved (encodeConversations
          (((startConversation s cid? fid t).2).conversations))) := by
  refine ⟨?_, ?_, ?_, ?_, ?_, ?_⟩
  · intro s x fid t c hx hc
    have htr : truthy (some x) = true := by simp [truthy, hx]
    have hk := knownId_eq_true hc
    unfold startConversation
    rw [show (some x).getD "" = x from rfl, htr, hk]
    rfl
  · intro s x fid t hx hc
    have htr : truthy (some x) = true := by simp [truthy, hx]
    have hk := knownId_eq_false hc
    unfold startConversation
    rw [show (some x).getD "" = x from rfl, htr, hk]
    rfl
  · intro s fid t
    unfold startConversation
    rw [show truthy none = false from rfl]
    rfl
  · intro s fid t
    unfold startConversation
    rw [show truthy (some "") = false from rfl]
    rfl
  · intro cs x t
    exact findConv_setConv_self cs x (newConv x t)
  · intro s cid? fid t h
    unfold startConversation
    rw [h]
    rfl

/-- C4 (witness): resume on a known id returns it twice with no reset;
an unknown supplied id is used as-is; a fresh id is used when none is
supplied. -/
theorem start_conversation_spec_witness :
    startConversation demoStore (some "c") "g" 9 = ("c", demoStore) ∧
    (startConversation ((startConversation demoStore (some "c") "g" 9).2)
      (some "c") "g2" 10).1 = "c" ∧
    (startConversation (emptyStore 100 50) (some "x") "g" 0).1 = "x" ∧
    (startConversation (emptyStore 100 50) none "g" 0).1 = "g" := by
  have h1 := start_conversation_spec.1 demoStore "c" "g" 9 demoConv
    (by decide) rfl
  refine ⟨h1, ?_, ?_, ?_⟩
  · rw [h1]
    exact congrArg Prod.fst (start_conversation_spec.1 demoStore "c" "g2" 10
      demoConv (by decide) rfl)
  · exact start_conversation_spec.2.1 (emptyStore 100 50) "x" "g" 0
      (by decide) rfl
  · exact start_conversation_spec.2.2.1 (emptyStore 100 50) "g" 0

theorem ctxGetNat_context (cid : String) (c : Conv) :
    ctxGetNat
      [("conversation_id", CtxVal.str cid),
       ("message_count", CtxVal.nat c.messages.length),
       ("last_updated", CtxVal.nat c.last_updated),
       ("recent_messages", CtxVal.msgs (lastN 5 c.messages)),
       ("context_summary", CtxVal.str (createContextSummary c.messages)),
       ("metadata", CtxVal.meta c.metadata)] "message_count" =
      c.messages.length := by
  rfl

theorem ctxGetMsgs_context (cid : String) (c : Conv) :
    ctxGetMsgs
      [("conversation_id", CtxVal.str cid),
       ("message_count", CtxVal.nat c.messages.length),
       ("last_updated", CtxVal.nat c.last_updated),
       ("recent_messages", CtxVal.msgs (lastN 5 c.messages)),
       ("context_summary", CtxVal.str (createContextSummary c.messages)),
       ("metadata", CtxVal.meta c.metadata)] "recent_messages" =
      lastN 5 c.messages := by
  rfl

/-- C7: the enhancement rule of `create_contextual_query`: an empty context
or one whose `message_count` is at most 1 passes the user message through
unchanged; with `message_count > 1` (for a store-derived context) the result
embeds the last 3 recent messages as "role: content" lines with contents
truncated to 150 characters, followed by the original question and the fixed
use-only-if-relevant instruction. -/
theorem contextual_query_spec :
    (∀ u, createContextualQuery u [] = u) ∧
    (∀ s cid u, findConv s.conversations cid = none →
      createContextualQuery u (getConversationContext s cid) = u) ∧
    (∀ s cid c u, findConv s.conversations cid = some c →
      c.messages.length ≤ 1 →
      createContextualQuery u (getConversationContext s cid) = u) ∧
    (∀ s cid c u, findConv s.conversations cid = some c →
      2 ≤ c.messages.length →
      createContextualQuery u (getConversationContext s cid) =
        "Previous conversation context:\n" ++
        String.intercalate "\n" ((lastN 3 c.messages).map
          (fun m => m.role ++ ": " ++ truncate m.content 150)) ++
        "\n\nCurrent question: " ++ u ++ contextInstruction) := by
  refine ⟨?_, ?_, ?_, ?_⟩
  · intro u
    unfold createContextualQuery
    rw [if_pos (Or.inl rfl)]
  · intro s cid u h
    rw [getConversationContext_eq_none h]
    unfold createContextualQuery
    rw [if_pos (Or.inl rfl)]
  · intro s cid c u hc hlen
    rw [getConversationContext_eq_some hc]
    unfold createContextualQuery
    rw [ctxGetNat_context]
    rw [if_pos (Or.inr hlen)]
  · intro s cid c u hc hlen
    rw [getConversationContext_eq_some hc]
    unfold createContextualQuery
    rw [ctxGetNat_context, ctxGetMsgs_context]
    rw [if_neg (by
      intro hor
      rcases hor with hnil | hle
      · exact absurd hnil (by simp)
      · omega)]
    dsimp only
    have hne : lastN 5 c.messages ≠ [] := by
      have hpos : 0 < (lastN 5 c.messages).length := by
        rw [length_lastN]
        omega
      exact List.ne_nil_of_length_pos hpos
    rw [if_neg hne]
    rw [show (lastN 5 c.messages).drop ((lastN 5 c.messages).length - 3) =
      lastN 3 (lastN 5 c.messages) from rfl]
    rw [lastN_lastN (by omega)]

/-- C7 (witness): the passthrough on a one-message conversation and the
framed query on the three-message example conversation. -/
theorem contextual_query_spec_witness :
    createContextualQuery "Q" [] = "Q" ∧
    createContextualQuery "Q" (getConversationContext demoStore "z") = "Q" ∧
    createContextualQuery "Q" (getConversationContext demoStore "c") =
      "Previous conversation context:\n" ++
      String.intercalate "\n" ((lastN 3 demoConv.messages).map
        (fun m => m.role ++ ": " ++ truncate m.content 150)) ++
      "\n\nCurrent question: " ++ "Q" ++ contextInstruction := by
  exact ⟨contextual_query_spec.1 "Q",
         contextual_query_spec.2.1 demoStore "z" "Q" rfl,
         contextual_query_spec.2.2.2 demoStore "c" demoConv "Q" rfl (by decide)⟩

theorem mem_of_mem_updateConv_ne {cs : List ConvEntry} {cid : String}
    {f : Conv → Conv} {e : ConvEntry} (h : e ∈ updateConv cs cid f)
    (hne : e.1 ≠ cid) : e ∈ cs := by
  rcases mem_updateConv_cases h with ⟨hmem, _⟩ | ⟨e', _, _, heq⟩
  · exact hmem
  · rw [heq] at hne
    exact absurd rfl hne

theorem addMessage_mem_ne {s : Store} {cid : String} {e : ConvEntry}
    {r x : String} {md : List (String × String)} {t : Nat}
    (he : e ∈ ((addMessage s cid r x md t).2).conversations)
    (hne : e.1 ≠ cid) : e ∈ s.conversations := by
  unfold addMessage at he
  by_cases hk : knownId s cid = true
  · simp only [hk, if_true] at he
    rw [saveToStorage_conversations] at he
    unfold cleanupOldMessages at he
    split at he
    · dsimp only at he
      exact mem_of_mem_updateConv_ne he hne
    · split at he
      · dsimp only at he
        exact mem_of_mem_updateConv_ne he hne
      · dsimp only at he
        have he1 := mem_of_mem_updateConv_ne he hne
        exact mem_of_mem_updateConv_ne he1 hne
  · simp only [Bool.not_eq_true] at hk
    simp only [hk, Bool.false_eq_true, if_false] at he
    exact he

/-- The store holding one fresh conversation "c", used by the
message-eviction scenario. -/
def msgScenarioStore (maxM : Nat) : Store :=
  { max_conversations := 100, max_messages_per_conversation := maxM,
    conversations := [("c", newConv "c" 0)], persisted := .missing }

/-- C3 (counterexample): with `max_messages_per_conversation = 0` the slice
`messages[-0:]` keeps everything, so after one successful append the
conversation holds 1 > 0 messages — the stated bound fails for the bound
value 0. -/
theorem message_bound_zero_counterexample :
    (msgScenarioStore 0).max_messages_per_conversation = 0 ∧
    (addMessage (msgScenarioStore 0) "c" "user" "hi" [] 1).1 = true ∧
    getConversationHistory ((addMessage (msgScenarioStore 0) "c" "user" "hi" [] 1).2)
      "c" none = [demoMsg "user" "hi" 1] := by
  exact ⟨rfl, rfl, rfl⟩

/-- C3 (amended): for a positive `max_messages_per_conversation` every
operation preserves the per-conversation bound (append trims the oldest
prefix, creation starts empty, metadata update and deletion leave message
lists alone), and appending `max + k` messages to one fresh conversation
leaves exactly the `max` most recently appended ones in insertion order. -/
theorem message_bound_spec :
    (∀ s cid r x md t, 1 ≤ s.max_messages_per_conversation →
      (s.conversations.map Prod.fst).Nodup → MsgBound s →
      MsgBound ((addMessage s cid r x md t).2)) ∧
    (∀ s cid? fid t, MsgBound s → MsgBound ((startConversation s cid? fid t).2)) ∧
    (∀ s cid md t, MsgBound s →
      MsgBound ((updateConversationMetadata s cid md t).2)) ∧
    (∀ s cid, MsgBound s → MsgBound ((deleteConversation s cid).2)) ∧
    (∀ maxM k t0 (pairs : List (String × String)), 1 ≤ maxM →
      pairs.length = maxM + k →
      ∃ c', findConv (appendMany "c" (msgScenarioStore maxM) pairs t0).conversations
          "c" = some c' ∧
        c'.messages = (toMsgs pairs t0).drop k ∧
        c'.messages.length = maxM) := by
  refine ⟨?_, ?_, ?_, ?_, ?_⟩
  · intro s cid r x md t h1 hnd hb
    by_cases hk : knownId s cid = true
    · rcases findConv_of_knownId hk with ⟨c, hc⟩
      intro e he
      rw [addMessage_maxM]
      by_cases hecid : e.1 = cid
      · have hndpost : ((((addMessage s cid r x md t).2).conversations).map
            Prod.fst).Nodup := by
          rw [addMessage_map_fst]
          exact hnd
        have hfc := addMessage_findConv_self r x md t h1 hc
        have hm : (cid, e.2) ∈ ((addMessage s cid r x md t).2).conversations := by
          have hee : e = (cid, e.2) := by
            rw [← hecid]
          exact hee ▸ he
        have heq := eq_of_keyed_mem_nodup hndpost hm hfc
        rw [heq]
        dsimp only
        rw [length_lastN]
        omega
      · exact hb e (addMessage_mem_ne he hecid)
    · simp only [Bool.not_eq_true] at hk
      intro e he
      unfold addMessage at he ⊢
      simp only [hk, Bool.false_eq_true, if_false] at he ⊢
      exact hb e he
  · intro s cid? fid t hb
    unfold startConversation
    split
    · exact hb
    · intro e he
      dsimp only at he ⊢
      rw [saveToStorage_conversations] at he
      have he2 := mem_cleanupList he
      rcases mem_setConv he2 with h1 | h1
      · exact hb e h1
      · rw [h1]
        exact Nat.zero_le _
  · intro s cid md t hb
    unfold updateConversationMetadata
    split
    · intro e he
      dsimp only at he ⊢
      rw [saveToStorage_conversations] at he
      dsimp only at he
      rcases mem_updateConv_cases he with ⟨h1, _⟩ | ⟨e', he', _, heq⟩
      · exact hb e h1
      · rw [heq]
        exact hb e' he'
    · exact hb
  · intro s cid hb
    unfold deleteConversation
    split
    · intro e he
      dsimp only at he ⊢
      rw [saveToStorage_conversations] at he
      dsimp only at he
      exact hb e ((List.mem_filter.mp he).1)
    · exact hb
  · intro maxM k t0 pairs h1 hlen
    have hc : findConv (msgScenarioStore maxM).conversations "c" =
        some (newConv "c" 0) := rfl
    rcases appendMany_findConv pairs (msgScenarioStore maxM) "c" t0
        (newConv "c" 0) h1 hc (Nat.zero_le _) with ⟨c', hc', hm⟩
    refine ⟨c', hc', ?_, ?_⟩
    · rw [hm]
      show lastN maxM ([] ++ toMsgs pairs t0) = (toMsgs pairs t0).drop k
      rw [List.nil_append, lastN, length_toMsgs, hlen]
      congr 1
      omega
    · rw [hm]
      show (lastN maxM ([] ++ toMsgs pairs t0)).length = maxM
      rw [List.nil_append, length_lastN, length_toMsgs, hlen]
      omega

/-- C3 (witness): bound preservation evaluated on the example store, and the
scenario with `max = 2`, `k = 1`: three appends leave the last two messages. -/
theorem message_bound_spec_witness :
    MsgBound ((addMessage demoStore "c" "user" "hi" [] 9).2) ∧
    (∃ c', findConv (appendMany "c" (msgScenarioStore 2)
        [("u", "m1"), ("u", "m2"), ("u", "m3")] 1).conversations "c" = some c' ∧
      c'.messages = (toMsgs [("u", "m1"), ("u", "m2"), ("u", "m3")] 1).drop 1 ∧
      c'.messages.length = 2) := by
  refine ⟨message_bound_spec.1 demoStore "c" "user" "hi" [] 9 (by decide)
    (by decide) (by
      show ∀ e ∈ demoStore.conversations,
        e.2.messages.length ≤ demoStore.max_messages_per_conversation
      decide), ?_⟩
  exact message_bound_spec.2.2.2.2 2 1 1 [("u", "m1"), ("u", "m2"), ("u", "m3")]
    (by decide) (by decide)

theorem addMessage_length (s : Store) (cid r x : String)
    (md : List (String × String)) (t : Nat) :
    ((addMessage s cid r x md t).2).conversations.length =
      s.conversations.length := by
  unfold addMessage
  split
  · rw [saveToStorage_conversations, cleanupOldMessages_length]
    simpa using length_updateConv _ _ _
  · rfl

theorem updateConversationMetadata_length (s : Store) (cid : String)
    (md : List (String × String)) (t : Nat) :
    ((updateConversationMetadata s cid md t).2).conversations.length =
      s.conversations.length := by
  unfold updateConversationMetadata
  split
  · rw [saveToStorage_conversations]
    simpa using length_updateConv _ _ _
  · rfl

/-- C2: the conversation-count bound is an invariant of every operation
(`start_conversation` restores it through the eviction pass, the other
operations never grow the dict); the eviction pass on a store whose dict is
ordered by `last_updated` (with distinct ids) deletes exactly the oldest
entries, keeping the trailing `max_conversations`; and creating
`max_conversations + k` conversations in a row leaves exactly the
`max_conversations` most recently updated ones, in creation order. -/
theorem conversation_bound_spec :
    (∀ s cid? fid t, (s.conversations.map Prod.fst).Nodup →
      s.conversations.length ≤ s.max_conversations →
      ((startConversation s cid? fid t).2).conversations.length ≤
        ((startConversation s cid? fid t).2).max_conversations) ∧
    (∀ s cid r x md t, s.conversations.length ≤ s.max_conversations →
      ((addMessage s cid r x md t).2).conversations.length ≤
        ((addMessage s cid r x md t).2).max_conversations) ∧
    (∀ s cid md t, s.conversations.length ≤ s.max_conversations →
      ((updateConversationMetadata s cid md t).2).conversations.length ≤
        ((updateConversationMetadata s cid md t).2).max_conversations) ∧
    (∀ s cid, s.conversations.length ≤ s.max_conversations →
      ((deleteConversation s cid).2).conversations.length ≤
        ((deleteConversation s cid).2).max_conversations) ∧
    (∀ maxC (cs : List ConvEntry), (cs.map Prod.fst).Nodup →
      cs.Pairwise (fun a b => lastUpd a ≤ lastUpd b) →
      cleanupList maxC cs = cs.drop (cs.length - maxC)) ∧
    (∀ maxC k, (buildMany maxC (maxC + k)).conversations =
        ((List.range (maxC + k)).map scenarioEntry).drop k ∧
      (buildMany maxC (maxC + k)).conversations.length = maxC) := by
  refine ⟨?_, ?_, ?_, ?_, ?_, ?_⟩
  · intro s cid? fid t hnd hle
    unfold startConversation
    split
    · exact hle
    · dsimp only
      rw [saveToStorage_conversations]
      unfold cleanupOldConversations
      dsimp only
      by_cases hsc : (setConv s.conversations
          (if truthy cid? = true then cid?.getD "" else fid)
          (newConv (if truthy cid? = true then cid?.getD "" else fid) t)).length ≤
          s.max_conversations
      · unfold cleanupList
        rw [if_pos hsc]
        exact hsc
      · rw [cleanupList_length_of_nodup (nodup_keys_setConv _ hnd) (by omega)]
        exact le_refl _
  · intro s cid r x md t hle
    rw [addMessage_length, addMessage_maxC]
    exact hle
  · intro s cid md t hle
    rw [updateConversationMetadata_length]
    unfold updateConversationMetadata
    split
    · exact hle
    · exact hle
  · intro s cid hle
    unfold deleteConversation
    split
    · dsimp only
      rw [saveToStorage_conversations]
      dsimp only
      exact le_trans (List.length_filter_le _ _) hle
    · exact hle
  · intro maxC cs hnd hsort
    exact cleanupList_eq_drop hnd hsort
  · intro maxC k
    rcases buildMany_conversations maxC (maxC + k) with ⟨hconv, _⟩
    have hdk : maxC + k - maxC = k := by omega
    rw [hdk] at hconv
    refine ⟨hconv, ?_⟩
    rw [hconv]
    simp only [List.length_drop, List.length_map, List.length_range]
    omega

/-- C2 (witness): bound preservation evaluated after one creating call on
the example store, and the scenario with `max = 2`, `k = 1`: after three
creations exactly the last two conversations remain. -/
theorem conversation_bound_spec_witness :
    ((startConversation demoStore none "g" 9).2).conversations.length ≤
      ((startConversation demoStore none "g" 9).2).max_conversations ∧
    (buildMany 2 3).conversations =
      ((List.range 3).map scenarioEntry).drop 1 ∧
    (buildMany 2 3).conversations.length = 2 := by
  refine ⟨conversation_bound_spec.1 demoStore none "g" 9 (by decide) (by decide),
          (conversation_bound_spec.2.2.2.2.2 2 1).1,
          (conversation_bound_spec.2.2.2.2.2 2 1).2⟩

theorem findConv_eq_none_of_knownId {s : Store} {cid : String}
    (h : knownId s cid = false) : findConv s.conversations cid = none := by
  unfold knownId at h
  cases hf : s.conversations.find? (fun e => e.1 == cid) with
  | none => rw [findConv, hf]; rfl
  | some e =>
      rw [hf] at h
      exact absurd h (by simp)

/-- C10 (counterexample): with `max_conversations = 0` the eviction pass
triggered by `start_conversation` deletes the conversation that was just
created, so the returned id maps to no readable conversation. -/
theorem start_conversation_zero_capacity_counterexample :
    (startConversation (emptyStore 0 50) none "g" 0).1 = "g" ∧
    ((startConversation (emptyStore 0 50) none "g" 0).2).conversations = [] ∧
    findConv ((startConversation (emptyStore 0 50) none "g" 0).2).conversations
      "g" = none ∧
    getConversationContext ((startConversation (emptyStore 0 50) none "g" 0).2)
      "g" = [] := by
  exact ⟨rfl, rfl, rfl, rfl⟩

/-- C10 (amended): for `max_conversations ≥ 1`, on any well-formed store
(all `last_updated` at or before the current time, generator output not
already a key), the id `start_conversation` returns — resumed or
newly created, supplied or generated — maps to an existing conversation, and
`get_conversation_context` on it is nonempty: the eviction pass never evicts
the conversation just created, because it sorts last with the newest
`last_updated` and at most `len - max_conversations` entries are deleted. -/
theorem start_conversation_readable_spec (s : Store) (cid? : Option String)
    (fid : String) (t : Nat)
    (h1 : 1 ≤ s.max_conversations)
    (hts : ∀ e ∈ s.conversations, lastUpd e ≤ t)
    (hf : fid ∉ s.conversations.map Prod.fst) :
    findConv ((startConversation s cid? fid t).2).conversations
      ((startConversation s cid? fid t).1) ≠ none ∧
    getConversationContext ((startConversation s cid? fid t).2)
      ((startConversation s cid? fid t).1) ≠ [] := by
  have hmain : findConv ((startConversation s cid? fid t).2).conversations
      ((startConversation s cid? fid t).1) ≠ none := by
    unfold startConversation
    split
    · next hcond =>
        have hk : knownId s (cid?.getD "") = true := by
          simp only [Bool.and_eq_true] at hcond
          exact hcond.2
        rcases findConv_of_knownId hk with ⟨c, hc⟩
        dsimp only
        rw [hc]
        simp
    · next hcond =>
        dsimp only
        rw [saveToStorage_conversations]
        unfold cleanupOldConversations
        dsimp only
        by_cases htr : truthy cid? = true
        · rw [if_pos htr]
          have hkfalse : knownId s (cid?.getD "") = false := by
            cases hkb : knownId s (cid?.getD "")
            · rfl
            · exact absurd (by rw [htr, hkb]; rfl) hcond
          have hnotmem : cid?.getD "" ∉ s.conversations.map Prod.fst :=
            findConv_eq_none_iff.mp (findConv_eq_none_of_knownId hkfalse)
          rw [setConv_of_not_mem _ hnotmem]
          exact findConv_ne_none_of_mem
            (cleanup_keeps_last h1 hnotmem (fun e he => hts e he))
        · rw [if_neg htr]
          rw [setConv_of_not_mem _ hf]
          exact findConv_ne_none_of_mem
            (cleanup_keeps_last h1 hf (fun e he => hts e he))
  refine ⟨hmain, ?_⟩
  rcases Option.ne_none_iff_exists'.mp hmain with ⟨c, hc⟩
  rw [getConversationContext_eq_some hc]
  simp

/-- C10 (witness): the amended guarantee evaluated on the example store with
a generated id after the example's last update. -/
theorem start_conversation_readable_spec_witness :
    findConv ((startConversation demoStore none "g" 5).2).conversations
      ((startConversation demoStore none "g" 5).1) ≠ none ∧
    getConversationContext ((startConversation demoStore none "g" 5).2)
      ((startConversation demoStore none "g" 5).1) ≠ [] := by
  exact start_conversation_readable_spec demoStore none "g" 5 (by decide)
    (by decide) (by decide)
